import Mathlib

/-!
Verification of the `DatasetPreparator` utility (`src/dataset_preparator.py`)
against its natural-language specification.

The Python class mutates one directory tree in place.  We embed the relevant
state as a finite map from paths to file contents together with a list of
directory paths, and each method as a pure state-transforming function.
`shutil.move` is modelled with POSIX `os.rename` semantics: renaming onto an
existing destination *file* silently replaces it; `shutil.move` only raises
for an occupied destination when the destination argument itself names an
existing directory.  The worker-pool dispatch (`multiprocessing.Pool`) is
modelled as a sequential fold over the snapshot list of work items, which is
one admissible schedule; no claim below depends on a particular interleaving.
-/

namespace DatasetPrep

/-! ## Whitespace tokenisation (Python `str.split()` with no separator)

`line.strip().split()` in `_reset_label_classes` splits a line into maximal
runs of non-whitespace characters; the leading `strip()` is redundant for
that purpose.  We model it at the character-list level. -/

/-- Auxiliary state machine for whitespace splitting: `cur` is the current
token being read, in reverse order. -/
def splitWAux : List Char → List Char → List (List Char)
  | [], cur => if cur = [] then [] else [cur.reverse]
  | c :: cs, cur =>
    if c.isWhitespace then
      if cur = [] then splitWAux cs [] else cur.reverse :: splitWAux cs []
    else
      splitWAux cs (c :: cur)

/-- Python `str.split()` (no argument): maximal runs of non-whitespace
characters, with no empty tokens. -/
def splitW (l : List Char) : List (List Char) :=
  splitWAux l []

/-- Python `" ".join(parts)`. -/
def joinSp : List (List Char) → List Char
  | [] => []
  | [t] => t
  | t :: ts => t ++ ' ' :: joinSp ts

/-- Splitting file content into lines at `'\n'` (the content-level effect of
`file.readlines()` followed by per-line `strip()`; a trailing newline yields a
final empty line, which carries no tokens). -/
def splitNl : List Char → List (List Char)
  | [] => [[]]
  | c :: cs =>
    if c = '\n' then [] :: splitNl cs
    else
      match splitNl cs with
      | [] => [[c]]
      | t :: ts => (c :: t) :: ts

/-- One loop iteration of `_reset_label_classes`: tokenless lines are
dropped, otherwise the first token is replaced by `'0'` and the tokens are
rejoined with single spaces. -/
def resetLabelLine (line : List Char) : Option (List Char) :=
  match splitW line with
  | [] => none
  | _ :: ps => some (joinSp (['0'] :: ps))

/-- The `updated` list built by `_reset_label_classes`, without the trailing
newline appended to each element. -/
def resetLabelLines (lines : List (List Char)) : List (List Char) :=
  lines.filterMap resetLabelLine

/-- Whole-content effect of `_reset_label_classes`: the file is rewritten
(`seek(0)`, `writelines`, `truncate`) to the processed lines, each followed
by `"\n"`. -/
def resetLabelChars (c : List Char) : List Char :=
  ((resetLabelLines (splitNl c)).map (· ++ ['\n'])).flatten

/-- String-level wrapper of `resetLabelChars`. -/
def resetLabel (s : String) : String :=
  ⟨resetLabelChars s.data⟩

/-! ## Path components and suffixes -/

/-- `pathlib.PurePath.suffix` of a single component: the part from the last
dot on, unless the dot is the first character or the last character. -/
def pathSuffixCore (l : List Char) : List Char :=
  if l.contains '.' then
    let after := (l.reverse.takeWhile (· ≠ '.')).reverse
    if after.length + 1 < l.length ∧ after ≠ [] then '.' :: after else []
  else []

/-- `Path(name).suffix` for one path component, as a string. -/
def pathSuffix (s : String) : String :=
  ⟨pathSuffixCore s.data⟩

/-- Python `str.lower()` (ASCII-adequate model). -/
def lowerStr (s : String) : String :=
  ⟨s.data.map Char.toLower⟩

/-- A path relative to the preparator's base directory: the list of
components.  `[]` is the base directory itself. -/
abbrev FPath := List String

/-- `Path(p).name` (final component; `""` for the base directory). -/
def pathName (p : FPath) : String :=
  p.getLast?.getD ""

/-! ## Filesystem state -/

/-- Content of a regular file: either plain text (labels and images are both
opaque text here) or the YAML manifest, modelled as the ordered key/value
record `yaml.safe_dump(data, sort_keys=False)` serialises. -/
inductive YVal where
  | s (v : String)
  | n (v : Nat)
  | l (v : List String)
deriving DecidableEq

/-- A file's content. -/
inductive FileContent where
  | text (s : String)
  | yaml (m : List (String × YVal))
deriving DecidableEq

/-- The subtree of the base directory: regular files with their contents, and
the directories strictly below the base (the base itself is implicit). -/
structure FS where
  files : List (FPath × FileContent)
  dirs : List FPath
deriving DecidableEq

/-- Content of the regular file at `p`, if any (first matching entry). -/
def FS.lookupFile (fs : FS) (p : FPath) : Option FileContent :=
  (fs.files.find? (fun e => e.1 == p)).map (·.2)

/-- `Path(p).is_dir()`. -/
def FS.isDir (fs : FS) (p : FPath) : Bool :=
  fs.dirs.contains p

/-- `Path(p).exists()`. -/
def FS.existsPath (fs : FS) (p : FPath) : Bool :=
  (fs.lookupFile p).isSome || fs.isDir p

/-- `Path(p).unlink()` (all entries at `p`; a well-formed state has one). -/
def FS.removeFile (fs : FS) (p : FPath) : FS :=
  { fs with files := fs.files.filter (fun e => !(e.1 == p)) }

/-- `Path(d).rmdir()`. -/
def FS.removeDir (fs : FS) (d : FPath) : FS :=
  { fs with dirs := fs.dirs.filter (fun e => !(e == d)) }

/-- `os.rename` of a regular file: the destination file, if present, is
silently replaced. -/
def FS.renameFile (fs : FS) (src dst : FPath) (c : FileContent) : FS :=
  { fs with
    files := fs.files.filter (fun e => !(e.1 == src) && !(e.1 == dst)) ++ [(dst, c)] }

/-- Re-root a path below `src` to below `dst`. -/
def replaceRoot (src dst p : FPath) : FPath :=
  dst ++ p.drop src.length

/-- `os.rename` of a directory to a fresh destination: every path below
`src` is re-rooted below `dst`. -/
def FS.renameDir (fs : FS) (src dst : FPath) : FS :=
  { files := fs.files.map (fun e =>
      if src.isPrefixOf e.1 then (replaceRoot src dst e.1, e.2) else e),
    dirs := fs.dirs.map (fun d =>
      if src.isPrefixOf d then replaceRoot src dst d else d) }

/-- `os.rename(src, dst)`.  Renaming a path to itself is a no-op; renaming a
missing source, or a file onto a directory, raises (the callers below catch
every exception, so those cases leave the state unchanged).  Renaming a
directory onto an existing destination is likewise treated as the caught
failure case. -/
def osRename (fs : FS) (src dst : FPath) : FS :=
  if src == dst then fs
  else
    match fs.lookupFile src with
    | some c => if fs.isDir dst then fs else fs.renameFile src dst c
    | none =>
      if fs.isDir src then
        if fs.existsPath dst then fs else fs.renameDir src dst
      else fs

/-- `shutil.move(src, dst)` where `dst` is a full destination path: if `dst`
names an existing directory the source is moved *into* it (raising when that
slot is occupied); otherwise it is an `os.rename` (with a copy fallback of
the same net effect). -/
def shutilMove (fs : FS) (src dst : FPath) : FS :=
  if fs.isDir dst then
    if src == dst then fs
    else
      let real := dst ++ [pathName src]
      if fs.existsPath real then fs else osRename fs src real
  else osRename fs src dst

/-! ## Flattener (`flatten_all_files`, `_move_file_safely`) -/

/-- `_move_file_safely(src, base_dir)`: the destination is the base directory
joined with the source's final component; an existing destination whose
suffix is `".jpg"` is unlinked first; then `shutil.move`.  All exceptions are
caught (so a failing step leaves the remaining state as it was at the point
of failure). -/
def moveFileSafely (fs : FS) (src : FPath) : FS :=
  if src = [] then fs
  else if fs.existsPath [pathName src] && (pathSuffix (pathName src) == ".jpg") then
    if fs.isDir [pathName src] then fs
    else shutilMove (fs.removeFile [pathName src]) src [pathName src]
  else shutilMove fs src [pathName src]

/-- The per-file tasks of `flatten_all_files`, run over an explicit snapshot
list of source paths. -/
def flattenOver (ps : List FPath) (fs : FS) : FS :=
  ps.foldl (fun s p => moveFileSafely s p) fs

/-- `flatten_all_files`: snapshot every file in the subtree (`rglob("*")`
with `is_file()`, which includes files already directly at the base), then
move each to the base directory. -/
def flatten_all_files (fs : FS) : FS :=
  flattenOver (fs.files.map (·.1)) fs

/-! ## Splitter (`split_dataset`, `_create_split_dirs`,
`_assign_to_split_folder`) -/

/-- The suffix set `{".jpg", ".png", ".txt"}` used by `split_dataset` to
select entries. -/
def recognizedSuffixes : List String := [".jpg", ".png", ".txt"]

/-- The suffix set `{".jpg", ".png"}` used by `_assign_to_split_folder` to
pick the category. -/
def imageSuffixes : List String := [".jpg", ".png"]

/-- `Path.mkdir(parents=True, exist_ok=True)`: create every missing
ancestor, parents first. -/
def FS.mkdirP (fs : FS) (p : FPath) : FS :=
  { fs with
    dirs := fs.dirs ++
      (((List.range p.length).map (fun i => p.take (i + 1))).filter
        (fun q => !(fs.dirs.contains q))) }

/-- The four split directories, in `itertools.product` order. -/
def splitDirPaths : List FPath :=
  [["images", "train"], ["images", "val"], ["labels", "train"], ["labels", "val"]]

/-- `_create_split_dirs`. -/
def createSplitDirs (fs : FS) : FS :=
  splitDirPaths.foldl FS.mkdirP fs

/-- `base_dir.iterdir()`: the entries (files and directories) directly under
the base. -/
def rootEntries (fs : FS) : List FPath :=
  (fs.files.map (·.1) ++ fs.dirs).filter (fun p => p.length == 1)

/-- The list comprehension in `split_dataset`: entries directly under the
base whose suffix is recognized — with no `is_file()` check. -/
def splitSelection (fs : FS) : List FPath :=
  (rootEntries fs).filter (fun p => recognizedSuffixes.contains (pathSuffix (pathName p)))

/-- `"train" if random() < train_ratio else "val"`, with the per-entry
uniform draw supplied by the oracle `draw`. -/
def splitChoice (draw : FPath → ℚ) (r : ℚ) (p : FPath) : String :=
  if draw p < r then "train" else "val"

/-- `"images" if fpath.suffix in {".jpg", ".png"} else "labels"`. -/
def categoryOf (p : FPath) : String :=
  if imageSuffixes.contains (pathSuffix (pathName p)) then "images" else "labels"

/-- `_assign_to_split_folder` (the `shutil.move` is wrapped in try/except). -/
def assignToSplitFolder (fs : FS) (r : ℚ) (draw : FPath → ℚ) (p : FPath) : FS :=
  shutilMove fs p [categoryOf p, splitChoice draw r p, pathName p]

/-- `split_dataset(train_ratio)`: create the split directories, snapshot the
suffix-selected entries, move each. -/
def split_dataset (fs : FS) (r : ℚ) (draw : FPath → ℚ) : FS :=
  (splitSelection (createSplitDirs fs)).foldl
    (fun s p => assignToSplitFolder s r draw p) (createSplitDirs fs)

/-! ## Label normalizer (`update_all_labels`, `_reset_label_classes`) -/

/-- Apply `_reset_label_classes` to the file at `p` (text contents only; the
read-modify-write happens on the one entry). -/
def resetLabelAt (fs : FS) (p : FPath) : FS :=
  { fs with
    files := fs.files.map (fun e =>
      if e.1 == p then
        (e.1, match e.2 with
              | .text s => .text (resetLabel s)
              | c => c)
      else e) }

/-- `update_all_labels`: snapshot `rglob("*.txt")` (name-glob: every file
whose name ends in `".txt"`), then rewrite each. -/
def update_all_labels (fs : FS) : FS :=
  (((fs.files.map (·.1)).filter (fun p => (pathName p).endsWith ".txt"))).foldl
    (fun s p => resetLabelAt s p) fs

/-! ## Cleaner (`remove_unwanted_files`, `remove_empty_dirs`) -/

/-- The allow-list `{".jpg", ".png", ".txt"}` of `remove_unwanted_files`. -/
def allowedSuffixes : List String := [".jpg", ".png", ".txt"]

/-- `remove_unwanted_files`: every file whose lower-cased suffix is outside
the allow-list is unlinked (`rglob("*")` over files; directories are skipped
by the `is_file()` check). -/
def remove_unwanted_files (fs : FS) : FS :=
  (fs.files.map (·.1)).foldl
    (fun s p =>
      if allowedSuffixes.contains (lowerStr (pathSuffix (pathName p))) then s
      else s.removeFile p)
    fs

/-- Does directory `d` have a direct child at `p`? -/
def isChildOf (d p : FPath) : Bool :=
  (p.length == d.length + 1) && d.isPrefixOf p

/-- `any(path.iterdir())`: the directory has at least one entry. -/
def FS.hasChild (fs : FS) (d : FPath) : Bool :=
  fs.files.any (fun e => isChildOf d e.1) || fs.dirs.any (fun e => isChildOf d e)

/-- The body of the `remove_empty_dirs` loop for one directory. -/
def pruneStep (s : FS) (d : FPath) : FS :=
  if s.hasChild d then s else s.removeDir d

/-- Process every directory at depth `k` (the `os.walk(topdown=False)`
traversal checks each directory after all directories strictly below it; we
linearise that constraint by decreasing depth). -/
def processDepth (fs : FS) (k : Nat) : FS :=
  (fs.dirs.filter (fun d => d.length == k)).foldl pruneStep fs

/-- Process depths `k, k-1, ..., 1`. -/
def removeEmptyAux : Nat → FS → FS
  | 0, fs => fs
  | k + 1, fs => removeEmptyAux k (processDepth fs (k + 1))

/-- Depth of the deepest directory. -/
def maxDepth (ds : List FPath) : Nat :=
  ds.foldr (fun d m => max d.length m) 0

/-- `remove_empty_dirs`: one bottom-up pass deleting every directory that has
no remaining entry when visited. -/
def remove_empty_dirs (fs : FS) : FS :=
  removeEmptyAux (maxDepth fs.dirs) fs

/-! ## Manifest writer (`create_yaml`) -/

/-- The insertion-ordered dict built by `create_yaml`; `class_names or []`
collapses both `None` and `[]` to the empty list.  `base` is
`str(self.base_dir)` (no trailing slash), so `str(base_dir / "images/train")`
is `base ++ "/images/train"`. -/
def create_yaml_data (base : String) (classNames : Option (List String)) :
    List (String × YVal) :=
  let names := classNames.getD []
  [("train", .s (base ++ "/images/train")),
   ("val", .s (base ++ "/images/val")),
   ("nc", .n names.length),
   ("names", .l names)]

/-- `create_yaml`: serialize the record to `dataset.yaml` at the base,
truncating/overwriting any existing file there (`open("w")`). -/
def create_yaml (base : String) (classNames : Option (List String)) (fs : FS) : FS :=
  let fs1 := fs.removeFile ["dataset.yaml"]
  { fs1 with files := fs1.files ++ [(["dataset.yaml"], .yaml (create_yaml_data base classNames))] }

/-! ## Lemmas: whitespace tokenisation -/

/-- Tokens produced by the splitter are nonempty and whitespace-free. -/
theorem splitWAux_tokens (l : List Char) :
    ∀ cur, (∀ c ∈ cur, c.isWhitespace = false) →
      ∀ t ∈ splitWAux l cur, t ≠ [] ∧ ∀ c ∈ t, c.isWhitespace = false := by
  induction l with
  | nil =>
    intro cur hcur t ht
    by_cases h : cur = []
    · simp [splitWAux, h] at ht
    · simp [splitWAux, h] at ht
      subst ht
      refine ⟨by simpa using h, ?_⟩
      intro c hc
      exact hcur c (by simpa using hc)
  | cons a as ih =>
    intro cur hcur t ht
    by_cases hws : a.isWhitespace
    · by_cases h : cur = []
      · simp [splitWAux, hws, h] at ht
        exact ih [] (by simp) t ht
      · simp [splitWAux, hws, h] at ht
        rcases ht with ht | ht
        · subst ht
          refine ⟨by simpa using h, ?_⟩
          intro c hc
          exact hcur c (by simpa using hc)
        · exact ih [] (by simp) t ht
    · simp only [splitWAux, hws, if_false] at ht
      refine ih (a :: cur) ?_ t ht
      intro c hc
      rcases List.mem_cons.mp hc with rfl | hc
      · simpa using hws
      · exact hcur c hc

/-- Tokens of `splitW` are nonempty and whitespace-free. -/
theorem splitW_tokens (l : List Char) :
    ∀ t ∈ splitW l, t ≠ [] ∧ ∀ c ∈ t, c.isWhitespace = false :=
  splitWAux_tokens l [] (by simp)

/-- Reading a whitespace-free block just extends the current token. -/
theorem splitWAux_append_nonws (t : List Char) :
    ∀ cur r, (∀ c ∈ t, c.isWhitespace = false) →
      splitWAux (t ++ r) cur = splitWAux r (t.reverse ++ cur) := by
  induction t with
  | nil => intro cur r _; simp
  | cons a as ih =>
    intro cur r h
    have ha : a.isWhitespace = false := h a (by simp)
    have has : ∀ c ∈ as, c.isWhitespace = false := fun c hc => h c (by simp [hc])
    simp only [List.cons_append, splitWAux, ha, Bool.false_eq_true, if_false,
      List.append_eq]
    rw [ih (a :: cur) r has]
    simp

/-- The separator is whitespace. -/
theorem space_isWhitespace : (' ').isWhitespace = true := by decide

/-- Splitting is a left inverse of joining with single spaces, on lists of
nonempty whitespace-free tokens. -/
theorem splitW_joinSp : ∀ ts : List (List Char),
    (∀ t ∈ ts, t ≠ [] ∧ ∀ c ∈ t, c.isWhitespace = false) →
    splitW (joinSp ts) = ts := by
  intro ts
  induction ts with
  | nil => intro _; simp [joinSp, splitW, splitWAux]
  | cons t ts ih =>
    intro h
    have ht : t ≠ [] ∧ ∀ c ∈ t, c.isWhitespace = false := h t (by simp)
    have hrev : t.reverse ≠ [] := by simpa using ht.1
    cases ts with
    | nil =>
      show splitW (joinSp [t]) = [t]
      have : joinSp [t] = t := rfl
      rw [this]
      unfold splitW
      rw [show t = t ++ ([] : List Char) by simp]
      rw [splitWAux_append_nonws t [] [] ht.2]
      simp [splitWAux, hrev]
    | cons t' ts' =>
      have hjoin : joinSp (t :: t' :: ts') = t ++ ' ' :: joinSp (t' :: ts') := rfl
      unfold splitW
      rw [hjoin, splitWAux_append_nonws t [] (' ' :: joinSp (t' :: ts')) ht.2]
      simp only [List.append_nil, splitWAux, space_isWhitespace, if_true, hrev,
        if_false, List.reverse_reverse]
      have := ih (fun u hu => h u (by simp [hu]))
      unfold splitW at this
      rw [this]

/-- Every character of a space-join is a space or a token character. -/
theorem mem_joinSp : ∀ ts : List (List Char), ∀ c ∈ joinSp ts,
    c = ' ' ∨ ∃ t ∈ ts, c ∈ t := by
  intro ts
  induction ts with
  | nil => intro c hc; simp [joinSp] at hc
  | cons t ts ih =>
    intro c hc
    cases ts with
    | nil => exact Or.inr ⟨t, by simp, by simpa [joinSp] using hc⟩
    | cons t' ts' =>
      have : c ∈ t ++ ' ' :: joinSp (t' :: ts') := hc
      rcases List.mem_append.mp this with h | h
      · exact Or.inr ⟨t, by simp, h⟩
      · rcases List.mem_cons.mp h with rfl | h
        · exact Or.inl rfl
        · rcases ih c h with h' | ⟨u, hu, hcu⟩
          · exact Or.inl h'
          · exact Or.inr ⟨u, by simp [hu], hcu⟩

/-! ## Lemmas: line splitting -/

theorem splitNl_ne_nil : ∀ l : List Char, splitNl l ≠ [] := by
  intro l
  induction l with
  | nil => simp [splitNl]
  | cons c cs ih =>
    by_cases h : c = '\n'
    · simp [splitNl, h]
    · simp only [splitNl, h, if_false]
      cases hcs : splitNl cs with
      | nil => simp
      | cons t ts => simp

theorem splitNl_append_cons (l r : List Char) (hl : '\n' ∉ l) :
    splitNl (l ++ '\n' :: r) = l :: splitNl r := by
  induction l with
  | nil => simp [splitNl]
  | cons c cs ih =>
    have hc : c ≠ '\n' := fun h => hl (by simp [h])
    have hcs : '\n' ∉ cs := fun h => hl (by simp [h])
    simp only [List.cons_append, splitNl, hc, if_false, List.append_eq]
    rw [ih hcs]

theorem splitNl_flatten : ∀ ls : List (List Char), (∀ l ∈ ls, '\n' ∉ l) →
    splitNl ((ls.map (· ++ ['\n'])).flatten) = ls ++ [[]] := by
  intro ls
  induction ls with
  | nil => intro _; simp [splitNl]
  | cons l ls ih =>
    intro h
    have hl : '\n' ∉ l := h l (by simp)
    have hls : ∀ u ∈ ls, '\n' ∉ u := fun u hu => h u (by simp [hu])
    simp only [List.map_cons, List.flatten_cons]
    rw [List.append_assoc]
    have : ['\n'] ++ (ls.map (· ++ ['\n'])).flatten = '\n' :: (ls.map (· ++ ['\n'])).flatten := rfl
    rw [this, splitNl_append_cons l _ hl, ih hls]
    simp

/-! ## Lemmas: the label rewrite -/

/-- Characterisation of an output line of `_reset_label_classes`: it is the
single-space join of `'0'` followed by the input tail tokens, and splitting
it recovers exactly those tokens. -/
theorem resetLabelLine_eq (line out : List Char) (h : resetLabelLine line = some out) :
    ∃ ps, splitW line ≠ [] ∧ ps = (splitW line).tail ∧
      out = joinSp (['0'] :: ps) ∧ splitW out = ['0'] :: ps := by
  unfold resetLabelLine at h
  cases hs : splitW line with
  | nil => rw [hs] at h; exact absurd h (by simp)
  | cons p ps =>
    rw [hs] at h
    have hout : out = joinSp (['0'] :: ps) := by
      simpa using h.symm
    have htoks : ∀ t ∈ ['0'] :: ps, t ≠ [] ∧ ∀ c ∈ t, c.isWhitespace = false := by
      intro t ht
      rcases List.mem_cons.mp ht with rfl | ht
      · exact ⟨by simp, by decide⟩
      · exact splitW_tokens line t (by simp [hs, ht])
    refine ⟨ps, by simp [hs], by simp [hs], hout, ?_⟩
    rw [hout]
    exact splitW_joinSp _ htoks

/-- Output lines contain no newline character. -/
theorem resetLabelLine_no_newline (line out : List Char)
    (h : resetLabelLine line = some out) : '\n' ∉ out := by
  rcases resetLabelLine_eq line out h with ⟨ps, hne, hps, hout, _⟩
  intro hmem
  rw [hout] at hmem
  rcases mem_joinSp _ '\n' hmem with h' | ⟨t, ht, hct⟩
  · exact absurd h' (by decide)
  · have htoks : ∀ c ∈ t, c.isWhitespace = false := by
      rcases List.mem_cons.mp ht with rfl | ht'
      · intro c hc
        simp at hc
        subst hc
        decide
      · cases hs : splitW line with
        | nil => exact absurd hs hne
        | cons a b =>
          have hmem' : t ∈ splitW line := by
            rw [hs] at hps
            simp at hps
            subst hps
            rw [hs]
            exact List.mem_cons_of_mem _ ht'
          exact (splitW_tokens line t hmem').2
    have h2 := htoks '\n' hct
    simp [show ('\n').isWhitespace = true from by decide] at h2

/-- `filterMap` is the identity when the function fixes every element. -/
theorem filterMap_id_of {α : Type} (f : α → Option α) :
    ∀ l : List α, (∀ x ∈ l, f x = some x) → l.filterMap f = l := by
  intro l
  induction l with
  | nil => intro _; simp
  | cons a as ih =>
    intro h
    rw [List.filterMap_cons, h a (by simp), ih (fun x hx => h x (by simp [hx]))]

/-- Output of an empty line is dropped. -/
theorem resetLabelLine_nil : resetLabelLine [] = none := rfl

/-- Every output line of the label rewrite satisfies the normalization
invariants. -/
theorem resetLabelLines_forall (ls : List (List Char)) :
    (resetLabelLines ls).Forall
      (fun l => (splitW l).head? = some ['0'] ∧ l = joinSp (splitW l) ∧ l ≠ []) := by
  rw [List.forall_iff_forall_mem]
  intro l' hl'
  rcases List.mem_filterMap.mp hl' with ⟨line, _, hline⟩
  rcases resetLabelLine_eq line l' hline with ⟨ps, _, _, hout, hsplit⟩
  refine ⟨by rw [hsplit]; rfl, by rw [hsplit, ← hout], ?_⟩
  rw [hout]
  cases ps <;> simp [joinSp]

/-- The output lines correspond one-to-one, in order, to the input lines that
carry at least one token; each output token list is `'0'` followed by the
unchanged tail of the input's token list. -/
theorem resetLabelLines_forall₂ : ∀ ls : List (List Char),
    List.Forall₂ (fun lo li => splitW lo = ['0'] :: (splitW li).tail)
      (resetLabelLines ls) (ls.filter (fun li => !(splitW li).isEmpty)) := by
  intro ls
  induction ls with
  | nil => exact List.Forall₂.nil
  | cons l ls ih =>
    cases hs : splitW l with
    | nil =>
      have h1 : resetLabelLines (l :: ls) = resetLabelLines ls := by
        unfold resetLabelLines
        rw [List.filterMap_cons]
        have : resetLabelLine l = none := by unfold resetLabelLine; rw [hs]
        rw [this]
      have h2 : (l :: ls).filter (fun li => !(splitW li).isEmpty) =
          ls.filter (fun li => !(splitW li).isEmpty) := by
        rw [List.filter_cons]
        simp [hs]
      rw [h1, h2]
      exact ih
    | cons p ps =>
      have hline : resetLabelLine l = some (joinSp (['0'] :: ps)) := by
        unfold resetLabelLine
        rw [hs]
      have h1 : resetLabelLines (l :: ls) =
          joinSp (['0'] :: ps) :: resetLabelLines ls := by
        unfold resetLabelLines
        rw [List.filterMap_cons, hline]
      have h2 : (l :: ls).filter (fun li => !(splitW li).isEmpty) =
          l :: ls.filter (fun li => !(splitW li).isEmpty) := by
        rw [List.filter_cons]
        simp [hs]
      rw [h1, h2]
      refine List.Forall₂.cons ?_ ih
      have htoks : ∀ t ∈ ['0'] :: ps, t ≠ [] ∧ ∀ c ∈ t, c.isWhitespace = false := by
        intro t ht
        rcases List.mem_cons.mp ht with rfl | ht
        · exact ⟨by simp, by decide⟩
        · exact splitW_tokens l t (by simp [hs, ht])
      rw [splitW_joinSp _ htoks, hs]
      rfl

/-- Claim C3: after label normalization, every non-blank output line's first
whitespace token is the literal `"0"`, blank/whitespace-only lines are
dropped, the tail tokens keep their count and order, and tokens are rejoined
with single spaces.  The written file content decomposes into exactly the
processed lines, each terminated by a newline. -/
theorem C3_label_normalization (c : List Char) :
    splitNl (resetLabelChars c) = resetLabelLines (splitNl c) ++ [[]] ∧
    (resetLabelLines (splitNl c)).Forall
      (fun l => (splitW l).head? = some ['0'] ∧ l = joinSp (splitW l) ∧ l ≠ []) ∧
    List.Forall₂ (fun lo li => splitW lo = ['0'] :: (splitW li).tail)
      (resetLabelLines (splitNl c))
      ((splitNl c).filter (fun li => !(splitW li).isEmpty)) := by
  refine ⟨?_, resetLabelLines_forall _, resetLabelLines_forall₂ _⟩
  unfold resetLabelChars
  refine splitNl_flatten _ ?_
  intro l hl
  rcases List.mem_filterMap.mp hl with ⟨line, _, hline⟩
  exact resetLabelLine_no_newline line l hline

/-- The char-level label rewrite is idempotent. -/
theorem resetLabelChars_idem (c : List Char) :
    resetLabelChars (resetLabelChars c) = resetLabelChars c := by
  have hnn : ∀ l ∈ resetLabelLines (splitNl c), '\n' ∉ l := by
    intro l hl
    rcases List.mem_filterMap.mp hl with ⟨line, _, hline⟩
    exact resetLabelLine_no_newline line l hline
  have hsplit : splitNl (resetLabelChars c) = resetLabelLines (splitNl c) ++ [[]] := by
    unfold resetLabelChars
    exact splitNl_flatten _ hnn
  have hfix : ∀ l ∈ resetLabelLines (splitNl c), resetLabelLine l = some l := by
    intro l hl
    rcases List.mem_filterMap.mp hl with ⟨line, _, hline⟩
    rcases resetLabelLine_eq line l hline with ⟨ps, _, _, hout, hsplitl⟩
    unfold resetLabelLine
    rw [hsplitl]
    exact congrArg some hout.symm
  have happ : resetLabelLines (resetLabelLines (splitNl c) ++ [[]]) =
      resetLabelLines (resetLabelLines (splitNl c)) ++ resetLabelLines [[]] := by
    simp [resetLabelLines]
  have hid : resetLabelLines (resetLabelLines (splitNl c)) = resetLabelLines (splitNl c) :=
    filterMap_id_of resetLabelLine _ hfix
  have hnil : resetLabelLines [[]] = [] := rfl
  conv_lhs => rw [resetLabelChars]
  rw [hsplit, happ, hid, hnil, List.append_nil]
  rfl

/-- Claim C4: label normalization is idempotent on file content — applying
it to an already-normalized content yields byte-identical content. -/
theorem C4_label_idempotent (s : String) : resetLabel (resetLabel s) = resetLabel s := by
  unfold resetLabel
  exact congrArg String.mk (resetLabelChars_idem s.data)

/-! ## Lemmas: lookups after filesystem edits -/

theorem find?_append_of_none {α : Type} (p : α → Bool) (l₁ l₂ : List α)
    (h : l₁.find? p = none) : (l₁ ++ l₂).find? p = l₂.find? p := by
  induction l₁ with
  | nil => simp
  | cons a l ih =>
    cases ha : p a with
    | true =>
      have h1 : (a :: l).find? p = some a := by simp [List.find?, ha]
      rw [h1] at h
      cases h
    | false =>
      have h1 : (a :: l).find? p = l.find? p := by simp [List.find?, ha]
      have h2 : ((a :: l) ++ l₂).find? p = (l ++ l₂).find? p := by simp [List.find?, ha]
      rw [h1] at h
      rw [h2]
      exact ih h

theorem find?_append_of_some {α : Type} (p : α → Bool) (l₁ l₂ : List α) (a : α)
    (h : l₁.find? p = some a) : (l₁ ++ l₂).find? p = some a := by
  induction l₁ with
  | nil => cases h
  | cons b l ih =>
    cases hb : p b with
    | true =>
      have h1 : (b :: l).find? p = some b := by simp [List.find?, hb]
      have h2 : ((b :: l) ++ l₂).find? p = some b := by simp [List.find?, hb]
      rw [h1] at h
      rw [h2]
      exact h
    | false =>
      have h1 : (b :: l).find? p = l.find? p := by simp [List.find?, hb]
      have h2 : ((b :: l) ++ l₂).find? p = (l ++ l₂).find? p := by simp [List.find?, hb]
      rw [h1] at h
      rw [h2]
      exact ih h

/-- Filtering out only elements that fail the search predicate does not
change the search result. -/
theorem find?_filter_of_imp {α : Type} (p q : α → Bool)
    (h : ∀ a, q a = false → p a = false) :
    ∀ l : List α, (l.filter q).find? p = l.find? p := by
  intro l
  induction l with
  | nil => simp
  | cons a l ih =>
    cases hq : q a with
    | true =>
      rw [List.filter_cons_of_pos hq]
      cases hp : p a <;> simp [List.find?, hp, ih]
    | false =>
      rw [List.filter_cons_of_neg (by simp [hq])]
      rw [ih]
      have := h a hq
      simp [List.find?, this]

theorem FS.dirs_removeFile (fs : FS) (q : FPath) : (fs.removeFile q).dirs = fs.dirs := rfl

theorem FS.dirs_renameFile (fs : FS) (src dst : FPath) (c : FileContent) :
    (fs.renameFile src dst c).dirs = fs.dirs := rfl

theorem FS.lookupFile_removeFile_self (fs : FS) (q : FPath) :
    (fs.removeFile q).lookupFile q = none := by
  unfold FS.lookupFile FS.removeFile
  have : (fs.files.filter (fun e => !(e.1 == q))).find? (fun e => e.1 == q) = none := by
    rw [List.find?_eq_none]
    intro x hx
    have hx2 := (List.mem_filter.mp hx).2
    simpa using hx2
  rw [this]
  rfl

theorem FS.lookupFile_removeFile_ne (fs : FS) (p q : FPath) (h : p ≠ q) :
    (fs.removeFile q).lookupFile p = fs.lookupFile p := by
  unfold FS.lookupFile FS.removeFile
  rw [find?_filter_of_imp]
  intro a ha
  simp at ha
  subst ha
  simpa using fun hq => h hq.symm

theorem FS.lookupFile_renameFile_dst (fs : FS) (src dst : FPath) (c : FileContent) :
    (fs.renameFile src dst c).lookupFile dst = some c := by
  unfold FS.lookupFile FS.renameFile
  have hnone : (fs.files.filter (fun e => !(e.1 == src) && !(e.1 == dst))).find?
      (fun e => e.1 == dst) = none := by
    rw [List.find?_eq_none]
    intro x hx
    have hx2 := (List.mem_filter.mp hx).2
    simp at hx2 ⊢
    exact hx2.2
  rw [find?_append_of_none _ _ _ hnone]
  simp [List.find?]

theorem FS.lookupFile_renameFile_src (fs : FS) (src dst : FPath) (c : FileContent)
    (h : src ≠ dst) : (fs.renameFile src dst c).lookupFile src = none := by
  unfold FS.lookupFile FS.renameFile
  have hnone : (fs.files.filter (fun e => !(e.1 == src) && !(e.1 == dst))).find?
      (fun e => e.1 == src) = none := by
    rw [List.find?_eq_none]
    intro x hx
    have hx2 := (List.mem_filter.mp hx).2
    simp at hx2 ⊢
    exact hx2.1
  rw [find?_append_of_none _ _ _ hnone]
  have hdst : (dst == src) = false := by
    simp
    exact fun h' => h h'.symm
  simp [List.find?, hdst]

theorem FS.lookupFile_renameFile_other (fs : FS) (src dst p : FPath) (c : FileContent)
    (hs : p ≠ src) (hd : p ≠ dst) :
    (fs.renameFile src dst c).lookupFile p = fs.lookupFile p := by
  have hfilter : (fs.files.filter (fun e => !(e.1 == src) && !(e.1 == dst))).find?
      (fun e => e.1 == p) = fs.files.find? (fun e => e.1 == p) := by
    refine find?_filter_of_imp _ _ ?_ _
    intro a ha
    by_cases h1 : a.1 = src
    · have : (a.1 == p) = false := by
        simp [h1]
        exact fun hh => hs hh.symm
      exact this
    · by_cases h2 : a.1 = dst
      · have : (a.1 == p) = false := by
          simp [h2]
          exact fun hh => hd hh.symm
        exact this
      · exfalso
        simp [h1, h2] at ha
  have key : (fs.files.filter (fun e => !(e.1 == src) && !(e.1 == dst)) ++ [(dst, c)]).find?
      (fun e => e.1 == p) = fs.files.find? (fun e => e.1 == p) := by
    cases hres : fs.files.find? (fun e => e.1 == p) with
    | none =>
      rw [find?_append_of_none _ _ _ (hfilter.trans hres)]
      have hdp : (dst == p) = false := by
        simp
        exact fun hh => hd hh.symm
      simp [List.find?, hdp]
    | some a =>
      exact find?_append_of_some _ _ _ _ (hfilter.trans hres)
  show ((fs.files.filter (fun e => !(e.1 == src) && !(e.1 == dst)) ++ [(dst, c)]).find?
      (fun e => e.1 == p)).map (·.2) = (fs.files.find? (fun e => e.1 == p)).map (·.2)
  rw [key]

/-! ## Claims C1 and C2: the flattener -/

/-- A base directory holding exactly one file, `a.jpg`, directly at the
base. -/
def fsRootJpg : FS := ⟨[(["a.jpg"], FileContent.text "x")], []⟩

/-- Claim C1 evaluated at the failing input: a `.jpg` file already directly
at the base directory is *deleted* by `flatten_all_files` (it is its own
destination, so the collision branch unlinks it and the subsequent move
fails), contradicting the specified postcondition that every file of the
subtree exists directly under the root afterwards. -/
theorem C1_root_jpg_deleted :
    fsRootJpg.lookupFile ["a.jpg"] = some (FileContent.text "x") ∧
    (flatten_all_files fsRootJpg).files = [] := by
  constructor
  · rfl
  · decide

/-- A `.txt` name collision: the incoming `sub/a.txt` meets an existing
`a.txt` at the base. -/
def fsTxtCollision : FS :=
  ⟨[(["sub", "a.txt"], FileContent.text "new"), (["a.txt"], FileContent.text "old")], [["sub"]]⟩

/-- Claim C2 counterexample: for a non-image (`.txt`) incoming file whose
destination exists, the existing destination is *not* preserved and the move
does *not* fail — `shutil.move`'s rename replaces the destination, so the
incoming content wins and the source is gone. -/
theorem C2_collision_overwrites :
    (moveFileSafely fsTxtCollision ["sub", "a.txt"]).lookupFile ["a.txt"] =
      some (FileContent.text "new") ∧
    (moveFileSafely fsTxtCollision ["sub", "a.txt"]).lookupFile ["sub", "a.txt"] = none := by
  decide

/-- `os.rename` on an existing source file with a non-directory destination
is exactly the replacing file rename. -/
theorem osRename_file (fs : FS) (src dst : FPath) (c : FileContent)
    (hne : src ≠ dst) (hc : fs.lookupFile src = some c) (hdir : fs.isDir dst = false) :
    osRename fs src dst = fs.renameFile src dst c := by
  have h1 : (src == dst) = false := by simp [hne]
  unfold osRename
  simp [h1, hc, hdir]

/-- Claim C2 as amended: during flattening, every collision of an incoming
file with an existing destination *file* ends with the incoming file's
content at the destination and the source removed (last-writer-wins for all
extensions — via an explicit pre-delete for `.jpg`, via rename overwrite for
everything else); no destination file is preserved. -/
theorem C2_last_writer_wins (fs : FS) (src : FPath) (n : String) (c : FileContent)
    (hnil : src ≠ []) (hsrc : pathName src = n) (hne : src ≠ [n])
    (hdir : fs.isDir [n] = false) (hc : fs.lookupFile src = some c) :
    (moveFileSafely fs src).lookupFile [n] = some c ∧
    (moveFileSafely fs src).lookupFile src = none := by
  have hbne : (src == [n]) = false := by
    simp
    exact hne
  unfold moveFileSafely
  rw [if_neg hnil, hsrc]
  by_cases hguard : (fs.existsPath [n] && (pathSuffix n == ".jpg")) = true
  · rw [if_pos hguard]
    have hdir2 : (fs.removeFile [n]).isDir [n] = false := hdir
    rw [if_neg (by rw [hdir]; simp)]
    have hc2 : (fs.removeFile [n]).lookupFile src = some c := by
      rw [FS.lookupFile_removeFile_ne fs src [n] hne]
      exact hc
    have hmove : shutilMove (fs.removeFile [n]) src [n] =
        (fs.removeFile [n]).renameFile src [n] c := by
      unfold shutilMove
      rw [if_neg (by rw [show (fs.removeFile [n]).isDir [n] = false from hdir2]; simp)]
      exact osRename_file _ _ _ _ hne hc2 hdir2
    rw [hmove]
    exact ⟨FS.lookupFile_renameFile_dst _ _ _ _,
      FS.lookupFile_renameFile_src _ _ _ _ hne⟩
  · rw [if_neg hguard]
    have hmove : shutilMove fs src [n] = fs.renameFile src [n] c := by
      unfold shutilMove
      rw [if_neg (by rw [hdir]; simp)]
      exact osRename_file _ _ _ _ hne hc hdir
    rw [hmove]
    exact ⟨FS.lookupFile_renameFile_dst _ _ _ _,
      FS.lookupFile_renameFile_src _ _ _ _ hne⟩

/-- Witness for `C2_last_writer_wins` at the concrete `.txt` collision. -/
theorem C2_last_writer_wins_witness :
    (["sub", "a.txt"] : FPath) ≠ [] ∧
    pathName ["sub", "a.txt"] = "a.txt" ∧
    (["sub", "a.txt"] : FPath) ≠ ["a.txt"] ∧
    fsTxtCollision.isDir ["a.txt"] = false ∧
    fsTxtCollision.lookupFile ["sub", "a.txt"] = some (FileContent.text "new") ∧
    ((moveFileSafely fsTxtCollision ["sub", "a.txt"]).lookupFile ["a.txt"] =
        some (FileContent.text "new") ∧
      (moveFileSafely fsTxtCollision ["sub", "a.txt"]).lookupFile ["sub", "a.txt"] = none) :=
  ⟨by decide, by decide, by decide, by decide, by decide,
    C2_last_writer_wins fsTxtCollision ["sub", "a.txt"] "a.txt" (FileContent.text "new")
      (by decide) (by decide) (by decide) (by decide) (by decide)⟩

/-! ## Claim C7: the file cleaner -/

theorem filter_ext_mem {α : Type} (p q : α → Bool) :
    ∀ l : List α, (∀ x ∈ l, p x = q x) → l.filter p = l.filter q := by
  intro l
  induction l with
  | nil => intro _; rfl
  | cons a l ih =>
    intro h
    rw [List.filter_cons, List.filter_cons, h a (by simp),
      ih (fun x hx => h x (by simp [hx]))]

/-- The deletion loop removes exactly the files the keep-predicate rejects,
among the listed paths. -/
theorem foldl_remove_eq_filter (keep : FPath → Bool) :
    ∀ (L : List FPath) (s : FS),
      (L.foldl (fun t p => if keep p then t else t.removeFile p) s).files =
        s.files.filter (fun e => keep e.1 || !(L.contains e.1)) := by
  intro L
  induction L with
  | nil =>
    intro s
    simp
  | cons p L ih =>
    intro s
    rw [List.foldl_cons]
    by_cases hk : keep p = true
    · rw [if_pos hk, ih s]
      refine filter_ext_mem _ _ _ ?_
      intro e _
      by_cases hep : e.1 = p
      · simp [hep, hk]
      · have hbeq : (e.1 == p) = false := by simp [hep]
        have h1 : ((p :: L).contains e.1) = (L.contains e.1) := by
          simp [List.contains, List.elem, hbeq]
        rw [h1]
    · rw [if_neg hk, ih (s.removeFile p)]
      have hk' : keep p = false := by
        cases h : keep p
        · rfl
        · exact absurd h hk
      unfold FS.removeFile
      rw [List.filter_filter]
      refine filter_ext_mem _ _ _ ?_
      intro e _
      by_cases hep : e.1 = p
      · simp [hep, hk']
      · have hbeq : (e.1 == p) = false := by simp [hep]
        have h1 : ((p :: L).contains e.1) = (L.contains e.1) := by
          simp [List.contains, List.elem, hbeq]
        rw [h1, hbeq]
        simp

/-- The deletion loop never touches directories. -/
theorem foldl_remove_dirs (keep : FPath → Bool) :
    ∀ (L : List FPath) (s : FS),
      (L.foldl (fun t p => if keep p then t else t.removeFile p) s).dirs = s.dirs := by
  intro L
  induction L with
  | nil => intro s; rfl
  | cons p L ih =>
    intro s
    rw [List.foldl_cons]
    by_cases hk : keep p = true
    · rw [if_pos hk, ih s]
    · rw [if_neg hk, ih (s.removeFile p)]
      rfl

/-- `remove_unwanted_files` keeps exactly the files whose lower-cased suffix
is allow-listed. -/
theorem remove_unwanted_files_files (fs : FS) :
    (remove_unwanted_files fs).files =
      fs.files.filter
        (fun e => allowedSuffixes.contains (lowerStr (pathSuffix (pathName e.1)))) := by
  unfold remove_unwanted_files
  rw [foldl_remove_eq_filter _ (fs.files.map (·.1)) fs]
  refine filter_ext_mem _ _ _ ?_
  intro e he
  have hmem : e.1 ∈ fs.files.map (·.1) := List.mem_map_of_mem _ he
  have hc : ((fs.files.map (·.1)).contains e.1) = true := List.elem_eq_true_of_mem hmem
  rw [hc]
  simp

/-- A file whose extension matches the allow-list only up to letter case. -/
def fsUpperJpg : FS := ⟨[(["a.JPG"], FileContent.text "x")], []⟩

/-- Claim C7: after `remove_unwanted_files` every remaining file's
lower-cased extension is in `{".jpg", ".png", ".txt"}`; the deletion check
lower-cases, while the splitter's recognition is case-sensitive, so `a.JPG`
is kept by the cleaner yet not recognized by the splitter. -/
theorem C7_cleaner_allowlist (fs : FS) :
    ((remove_unwanted_files fs).files.map (·.1)).Forall
      (fun p => lowerStr (pathSuffix (pathName p)) ∈ allowedSuffixes) ∧
    (remove_unwanted_files fs).dirs = fs.dirs ∧
    (remove_unwanted_files fsUpperJpg).lookupFile ["a.JPG"] = some (FileContent.text "x") ∧
    recognizedSuffixes.contains (pathSuffix "a.JPG") = false ∧
    allowedSuffixes.contains (lowerStr (pathSuffix "a.JPG")) = true := by
  refine ⟨?_, foldl_remove_dirs _ _ _, by decide, by decide, by decide⟩
  rw [List.forall_iff_forall_mem]
  intro p hp
  rcases List.mem_map.mp hp with ⟨e, he, rfl⟩
  rw [remove_unwanted_files_files fs] at he
  have := (List.mem_filter.mp he).2
  simpa using this

/-! ## Claim C8: the manifest writer -/

/-- After `create_yaml`, the manifest file at the base holds exactly the
ordered record, whatever was there before. -/
theorem create_yaml_lookup (base : String) (cls : Option (List String)) (fs : FS) :
    (create_yaml base cls fs).lookupFile ["dataset.yaml"] =
      some (.yaml (create_yaml_data base cls)) := by
  have hnone : (fs.files.filter (fun e => !(e.1 == (["dataset.yaml"] : FPath)))).find?
      (fun e => e.1 == (["dataset.yaml"] : FPath)) = none := by
    rw [List.find?_eq_none]
    intro x hx
    have hx2 := (List.mem_filter.mp hx).2
    simpa using hx2
  show ((fs.files.filter (fun e => !(e.1 == (["dataset.yaml"] : FPath))) ++
      [((["dataset.yaml"] : FPath), FileContent.yaml (create_yaml_data base cls))]).find?
        (fun e => e.1 == (["dataset.yaml"] : FPath))).map (·.2) = _
  rw [find?_append_of_none _ _ _ hnone]
  simp [List.find?]

/-- Claim C8: `create_yaml` writes `dataset.yaml` at the base, overwriting
any prior manifest, with the keys `train`, `val`, `nc`, `names` in that
order; for `["cat","dog"]` under `/data/ds` the record is exactly as the
specification's scenario states, and with no class-name list `nc = 0` and
`names = []`. -/
theorem C8_manifest (fs fs2 : FS) (base : String) :
    (create_yaml "/data/ds" (some ["cat", "dog"]) fs).lookupFile ["dataset.yaml"] =
      some (.yaml [("train", .s "/data/ds/images/train"),
                   ("val", .s "/data/ds/images/val"),
                   ("nc", .n 2),
                   ("names", .l ["cat", "dog"])]) ∧
    (create_yaml base none fs2).lookupFile ["dataset.yaml"] =
      some (.yaml [("train", .s (base ++ "/images/train")),
                   ("val", .s (base ++ "/images/val")),
                   ("nc", .n 0),
                   ("names", .l [])]) := by
  constructor
  · rw [create_yaml_lookup]
    have : create_yaml_data "/data/ds" (some ["cat", "dog"]) =
        [("train", .s "/data/ds/images/train"), ("val", .s "/data/ds/images/val"),
         ("nc", .n 2), ("names", .l ["cat", "dog"])] := by decide
    rw [this]
  · rw [create_yaml_lookup]
    rfl

/-! ## Claim C6: empty-directory removal -/

/-- The pruning pass never touches files. -/
theorem foldl_prune_files : ∀ (L : List FPath) (s : FS),
    (L.foldl pruneStep s).files = s.files := by
  intro L
  induction L with
  | nil => intro s; rfl
  | cons l L ih =>
    intro s
    rw [List.foldl_cons, ih (pruneStep s l)]
    unfold pruneStep
    by_cases h : s.hasChild l = true
    · rw [if_pos h]
    · rw [if_neg h]
      rfl

/-- The pruning pass only removes directories. -/
theorem foldl_prune_dirs_sub : ∀ (L : List FPath) (s : FS) (d : FPath),
    d ∈ (L.foldl pruneStep s).dirs → d ∈ s.dirs := by
  intro L
  induction L with
  | nil => intro s d hd; exact hd
  | cons l L ih =>
    intro s d hd
    rw [List.foldl_cons] at hd
    have hd1 := ih (pruneStep s l) d hd
    unfold pruneStep at hd1
    by_cases h : s.hasChild l = true
    · rw [if_pos h] at hd1; exact hd1
    · rw [if_neg h] at hd1
      exact (List.mem_filter.mp hd1).1

/-- Removing one directory of a different depth than `d`'s children
preserves `d`'s nonemptiness. -/
theorem pruneStep_hasChild (s : FS) (l d : FPath) (h : s.hasChild d = true)
    (hlen : d.length + 1 ≠ l.length) : (pruneStep s l).hasChild d = true := by
  unfold pruneStep
  by_cases hch : s.hasChild l = true
  · rw [if_pos hch]; exact h
  · rw [if_neg hch]
    unfold FS.hasChild at h ⊢
    simp only [Bool.or_eq_true] at h ⊢
    rcases h with hf | hdirs
    · exact Or.inl hf
    · refine Or.inr ?_
      rcases List.any_eq_true.mp hdirs with ⟨c, hc, hcchild⟩
      refine List.any_eq_true.mpr ⟨c, ?_, hcchild⟩
      have hclen : c.length = d.length + 1 := by
        unfold isChildOf at hcchild
        simp only [Bool.and_eq_true] at hcchild
        have := hcchild.1
        simpa using this
      have hcl : c ≠ l := by
        intro hcl
        subst hcl
        omega
      show c ∈ s.dirs.filter (fun e => !(e == l))
      exact List.mem_filter.mpr ⟨hc, by simp [hcl]⟩

/-- Every directory surviving the fixed-depth pass is nonempty in the final
state: either it was in the processed list (so it passed the live emptiness
check and only deeper entries could have vanished since — but only
same-depth directories are ever removed), or it was already nonempty via an
entry that the pass cannot remove. -/
theorem foldl_prune_main (m : Nat) : ∀ (L : List FPath) (s : FS) (d : FPath),
    (∀ l ∈ L, l.length = m) →
    d ∈ (L.foldl pruneStep s).dirs →
    (d ∈ L ∨ (s.hasChild d = true ∧ d.length + 1 ≠ m)) →
    (L.foldl pruneStep s).hasChild d = true := by
  intro L
  induction L with
  | nil =>
    intro s d _ _ hdis
    rcases hdis with h | ⟨h, _⟩
    · exact absurd h (List.not_mem_nil d)
    · exact h
  | cons l L ih =>
    intro s d hL hmem hdis
    rw [List.foldl_cons] at hmem ⊢
    have hLtail : ∀ x ∈ L, x.length = m := fun x hx => hL x (by simp [hx])
    rcases hdis with hin | ⟨hch, hlen⟩
    · rcases List.mem_cons.mp hin with rfl | hinL
      · by_cases hch : s.hasChild d = true
        · have hstep : pruneStep s d = s := by
            unfold pruneStep
            rw [if_pos hch]
          rw [hstep] at hmem ⊢
          refine ih s d hLtail hmem (Or.inr ⟨hch, ?_⟩)
          have hdm : d.length = m := hL d (by simp)
          omega
        · have hstep : pruneStep s d = s.removeDir d := by
            unfold pruneStep
            rw [if_neg hch]
          rw [hstep] at hmem
          exfalso
          have hsub := foldl_prune_dirs_sub L (s.removeDir d) d hmem
          have hmem2 : d ∈ s.dirs.filter (fun e => !(e == d)) := hsub
          have := (List.mem_filter.mp hmem2).2
          simp at this
      · exact ih (pruneStep s l) d hLtail hmem (Or.inl hinL)
    · have hl : l.length = m := hL l (by simp)
      have hstep := pruneStep_hasChild s l d hch (by omega)
      exact ih (pruneStep s l) d hLtail hmem (Or.inr ⟨hstep, hlen⟩)

/-- Invariant step: after processing depth `k + 1`, every surviving
directory deeper than `k` is nonempty. -/
theorem processDepth_inv (fs : FS) (k : Nat)
    (hinv : ∀ d ∈ fs.dirs, k + 1 < d.length → fs.hasChild d = true) :
    ∀ d ∈ (processDepth fs (k + 1)).dirs, k < d.length →
      (processDepth fs (k + 1)).hasChild d = true := by
  intro d hd hk
  unfold processDepth at hd ⊢
  have hL : ∀ l ∈ fs.dirs.filter (fun x => x.length == k + 1), l.length = k + 1 := by
    intro l hl
    have := (List.mem_filter.mp hl).2
    simpa using this
  have hdin : d ∈ fs.dirs := foldl_prune_dirs_sub _ fs d hd
  by_cases hdl : d.length = k + 1
  · refine foldl_prune_main (k + 1) _ fs d hL hd (Or.inl ?_)
    exact List.mem_filter.mpr ⟨hdin, by simp [hdl]⟩
  · have hgt : k + 1 < d.length := by omega
    exact foldl_prune_main (k + 1) _ fs d hL hd (Or.inr ⟨hinv d hdin hgt, by omega⟩)

/-- Running the pass from depth `k` downward leaves no empty directory of
positive depth, given every directory deeper than `k` is already
nonempty. -/
theorem removeEmptyAux_inv : ∀ (k : Nat) (fs : FS),
    (∀ d ∈ fs.dirs, k < d.length → fs.hasChild d = true) →
    ∀ d ∈ (removeEmptyAux k fs).dirs, 0 < d.length →
      (removeEmptyAux k fs).hasChild d = true := by
  intro k
  induction k with
  | zero =>
    intro fs hinv d hd h0
    exact hinv d hd h0
  | succ k ih =>
    intro fs hinv d hd h0
    exact ih (processDepth fs (k + 1)) (processDepth_inv fs k hinv) d hd h0

theorem length_le_maxDepth : ∀ (ds : List FPath) (d : FPath), d ∈ ds →
    d.length ≤ maxDepth ds := by
  intro ds
  induction ds with
  | nil => intro d hd; exact absurd hd (List.not_mem_nil d)
  | cons a ds ih =>
    intro d hd
    unfold maxDepth
    rw [List.foldr_cons]
    rcases List.mem_cons.mp hd with rfl | hd
    · exact Nat.le_max_left _ _
    · have hle := ih d hd
      unfold maxDepth at hle
      exact le_trans hle (Nat.le_max_right _ _)

/-- Claim C6: after one invocation of `remove_empty_dirs`, no directory
strictly under the base is empty — including directories whose entire
contents were removed by the same invocation, since children are processed
before parents. -/
theorem C6_no_empty_dirs (fs : FS) :
    (remove_empty_dirs fs).dirs.Forall
      (fun d => d = [] ∨ (remove_empty_dirs fs).hasChild d = true) := by
  rw [List.forall_iff_forall_mem]
  intro d hd
  by_cases hnil : d = []
  · exact Or.inl hnil
  · refine Or.inr ?_
    unfold remove_empty_dirs at hd ⊢
    refine removeEmptyAux_inv (maxDepth fs.dirs) fs ?_ d hd (List.length_pos.mpr hnil)
    intro d' hd' hgt
    have := length_le_maxDepth fs.dirs d' hd'
    omega

/-! ## Claim C5: the splitter -/

/-- The six directories present after `_create_split_dirs` on a directory
tree without subdirectories, in creation order. -/
def splitDirsAll : List FPath :=
  [["images"], ["images", "train"], ["images", "val"],
   ["labels"], ["labels", "train"], ["labels", "val"]]

theorem splitDirsAll_no_len3 (a b m : String) : splitDirsAll.contains [a, b, m] = false := by
  cases hc : splitDirsAll.contains [a, b, m]
  · rfl
  · exfalso
    have hmem : ([a, b, m] : FPath) ∈ splitDirsAll := List.mem_of_elem_eq_true hc
    simp [splitDirsAll] at hmem

theorem splitDirsAll_len1 (m : String) (h : splitDirsAll.contains [m] = true) :
    m = "images" ∨ m = "labels" := by
  have hmem : ([m] : FPath) ∈ splitDirsAll := List.mem_of_elem_eq_true h
  simp [splitDirsAll] at hmem
  tauto

/-- `createSplitDirs` leaves files untouched. -/
theorem createSplitDirs_files (fs : FS) : (createSplitDirs fs).files = fs.files := rfl

/-- On a tree without subdirectories, `_create_split_dirs` creates exactly
the six directories. -/
theorem createSplitDirs_dirs (fs : FS) (h : fs.dirs = []) :
    (createSplitDirs fs).dirs = splitDirsAll := by
  cases fs with
  | mk fsf fsd =>
    have h' : fsd = [] := h
    subst h'
    rfl

/-- `os.rename` with a missing, non-directory source is a caught failure. -/
theorem osRename_missing (fs : FS) (src dst : FPath)
    (hlk : fs.lookupFile src = none) (hdir : fs.isDir src = false) :
    osRename fs src dst = fs := by
  unfold osRename
  by_cases h : (src == dst) = true
  · rw [if_pos h]
  · rw [if_neg h]
    simp [hlk, hdir]

/-- Lookups only read the `files` field. -/
theorem lookupFile_congr_files (s t : FS) (h : s.files = t.files) (p : FPath) :
    s.lookupFile p = t.lookupFile p := by
  unfold FS.lookupFile
  rw [h]

/-- A selected entry that is a present file moves to its category/split
slot. -/
theorem assign_move (s : FS) (r : ℚ) (draw : FPath → ℚ) (m : String) (c : FileContent)
    (hc : s.lookupFile [m] = some c)
    (hdstdir : s.isDir [categoryOf [m], splitChoice draw r [m], m] = false) :
    assignToSplitFolder s r draw [m] =
      s.renameFile [m] [categoryOf [m], splitChoice draw r [m], m] c := by
  have hne : ([m] : FPath) ≠ [categoryOf [m], splitChoice draw r [m], m] := by
    intro hcontra
    have := congrArg List.length hcontra
    simp at this
  unfold assignToSplitFolder
  rw [show pathName [m] = m from rfl]
  unfold shutilMove
  rw [if_neg (by rw [hdstdir]; simp)]
  exact osRename_file _ _ _ _ hne hc hdstdir

/-- A selected entry that is absent (and not a directory) leaves the state
unchanged (the caught-failure branch). -/
theorem assign_missing (s : FS) (r : ℚ) (draw : FPath → ℚ) (m : String)
    (hlk : s.lookupFile [m] = none) (hsrcdir : s.isDir [m] = false)
    (hdstdir : s.isDir [categoryOf [m], splitChoice draw r [m], m] = false) :
    assignToSplitFolder s r draw [m] = s := by
  unfold assignToSplitFolder
  rw [show pathName [m] = m from rfl]
  unfold shutilMove
  rw [if_neg (by rw [hdstdir]; simp)]
  exact osRename_missing _ _ _ hlk hsrcdir

/-- Moving the entry named `m ≠ n` changes no path of the `n`-family and no
directory. -/
theorem assign_preserves (s : FS) (r : ℚ) (draw : FPath → ℚ) (m n : String)
    (hmn : m ≠ n)
    (hmsuffix : recognizedSuffixes.contains (pathSuffix m) = true)
    (hdirs : s.dirs = splitDirsAll) :
    (assignToSplitFolder s r draw [m]).dirs = splitDirsAll ∧
    (assignToSplitFolder s r draw [m]).lookupFile [n] = s.lookupFile [n] ∧
    ∀ a b : String,
      (assignToSplitFolder s r draw [m]).lookupFile [a, b, n] = s.lookupFile [a, b, n] := by
  have hdstdir : s.isDir [categoryOf [m], splitChoice draw r [m], m] = false := by
    show s.dirs.contains _ = false
    rw [hdirs]
    exact splitDirsAll_no_len3 _ _ _
  have hsrcdir : s.isDir [m] = false := by
    show s.dirs.contains [m] = false
    rw [hdirs]
    cases hc : splitDirsAll.contains [m]
    · rfl
    · exfalso
      rcases splitDirsAll_len1 m hc with rfl | rfl
      · exact absurd hmsuffix (by decide)
      · exact absurd hmsuffix (by decide)
  cases hlk : s.lookupFile [m] with
  | some cm =>
    rw [assign_move s r draw m cm hlk hdstdir]
    refine ⟨by rw [FS.dirs_renameFile]; exact hdirs, ?_, ?_⟩
    · refine FS.lookupFile_renameFile_other _ _ _ _ _ ?_ ?_
      · intro hcontra
        injection hcontra with h1 _
        exact hmn (h1.symm)
      · intro hcontra
        have := congrArg List.length hcontra
        simp at this
    · intro a b
      refine FS.lookupFile_renameFile_other _ _ _ _ _ ?_ ?_
      · intro hcontra
        have := congrArg List.length hcontra
        simp at this
      · intro hcontra
        injection hcontra with _ h2
        injection h2 with _ h3
        injection h3 with h4 _
        exact hmn h4.symm
  | none =>
    rw [assign_missing s r draw m hlk hsrcdir hdstdir]
    exact ⟨hdirs, rfl, fun _ _ => rfl⟩

/-- Folding the mover over entries that all differ from `n` preserves the
whole `n`-family and the directory set. -/
theorem foldl_assign_preserves (r : ℚ) (draw : FPath → ℚ) (n : String) :
    ∀ (L : List FPath) (s : FS),
      (∀ q ∈ L, q.length = 1 ∧
        recognizedSuffixes.contains (pathSuffix (pathName q)) = true ∧ q ≠ [n]) →
      s.dirs = splitDirsAll →
      (L.foldl (fun t q => assignToSplitFolder t r draw q) s).dirs = splitDirsAll ∧
      (L.foldl (fun t q => assignToSplitFolder t r draw q) s).lookupFile [n] =
        s.lookupFile [n] ∧
      ∀ a b : String,
        (L.foldl (fun t q => assignToSplitFolder t r draw q) s).lookupFile [a, b, n] =
          s.lookupFile [a, b, n] := by
  intro L
  induction L with
  | nil => intro s _ hdirs; exact ⟨hdirs, rfl, fun _ _ => rfl⟩
  | cons q L ih =>
    intro s hchar hdirs
    rcases hchar q (by simp) with ⟨hlen, hsuf, hqn⟩
    obtain ⟨m, rfl⟩ : ∃ m : String, q = [m] := by
      cases q with
      | nil => simp at hlen
      | cons m rest =>
        cases rest with
        | nil => exact ⟨m, rfl⟩
        | cons _ _ => simp at hlen
    have hmn : m ≠ n := fun h => hqn (by rw [h])
    have hsuf' : recognizedSuffixes.contains (pathSuffix m) = true := hsuf
    have hstep := assign_preserves s r draw m n hmn hsuf' hdirs
    rw [List.foldl_cons]
    have hrest := ih (assignToSplitFolder s r draw [m]) (fun x hx => hchar x (by simp [hx]))
      hstep.1
    refine ⟨hrest.1, ?_, ?_⟩
    · rw [hrest.2.1, hstep.2.1]
    · intro a b
      rw [hrest.2.2 a b, hstep.2.2 a b]

/-- On a tree without subdirectories, the splitter's snapshot selection is
exactly the root-level files with recognized suffix. -/
theorem splitSelection_of_no_dirs (fs : FS) (h : fs.dirs = []) :
    splitSelection (createSplitDirs fs) =
      ((fs.files.map (·.1)).filter (fun p => p.length == 1)).filter
        (fun p => recognizedSuffixes.contains (pathSuffix (pathName p))) := by
  unfold splitSelection rootEntries
  rw [createSplitDirs_files, createSplitDirs_dirs fs h]
  rw [List.filter_append, List.filter_append]
  have h2 : (splitDirsAll.filter (fun p => p.length == 1)).filter
      (fun p => recognizedSuffixes.contains (pathSuffix (pathName p))) = [] := by decide
  rw [h2, List.append_nil]

theorem splitSelection_mem_char (fs : FS) (h : fs.dirs = []) :
    ∀ q ∈ splitSelection (createSplitDirs fs),
      q.length = 1 ∧ recognizedSuffixes.contains (pathSuffix (pathName q)) = true := by
  intro q hq
  rw [splitSelection_of_no_dirs fs h] at hq
  have h1 := List.mem_filter.mp hq
  have h2 := List.mem_filter.mp h1.1
  exact ⟨by simpa using h2.2, h1.2⟩

theorem splitSelection_mem_target (fs : FS) (h : fs.dirs = []) (n : String) (c : FileContent)
    (h2 : fs.lookupFile [n] = some c)
    (h3 : recognizedSuffixes.contains (pathSuffix n) = true) :
    [n] ∈ splitSelection (createSplitDirs fs) := by
  rw [splitSelection_of_no_dirs fs h]
  rcases Option.map_eq_some'.mp h2 with ⟨e, hfind, _⟩
  have hmem : e ∈ fs.files := List.mem_of_find?_eq_some hfind
  have hpe : e.1 = [n] := by simpa using List.find?_some hfind
  refine List.mem_filter.mpr ⟨List.mem_filter.mpr ⟨?_, by simp⟩, ?_⟩
  · rw [← hpe]
    exact List.mem_map_of_mem _ hmem
  · show recognizedSuffixes.contains (pathSuffix (pathName [n])) = true
    exact h3

theorem splitSelection_nodup (fs : FS) (h0 : fs.dirs = [])
    (h1 : (fs.files.map (·.1)).Nodup) : (splitSelection (createSplitDirs fs)).Nodup := by
  rw [splitSelection_of_no_dirs fs h0]
  exact (h1.filter _).filter _

/-- The target entry's move is the replacing rename into its slot. -/
theorem assign_target (s : FS) (r : ℚ) (draw : FPath → ℚ) (n : String) (c : FileContent)
    (hdirs : s.dirs = splitDirsAll) (hc : s.lookupFile [n] = some c) :
    assignToSplitFolder s r draw [n] =
      s.renameFile [n] [categoryOf [n], splitChoice draw r [n], n] c := by
  refine assign_move s r draw n c hc ?_
  show s.dirs.contains _ = false
  rw [hdirs]
  exact splitDirsAll_no_len3 _ _ _

/-- Claim C5: for a recognized file directly under the base of a
subdirectory-free tree, after `split_dataset` the file sits at exactly one
of the four split slots — category from its extension, `train` exactly when
its draw is below the ratio — the other slots stay empty, it is gone from
the base, and the four split directories exist. -/
theorem C5_split_assignment (fs : FS) (r : ℚ) (draw : FPath → ℚ) (n : String)
    (c : FileContent)
    (h0 : fs.dirs = [])
    (h1 : (fs.files.map (·.1)).Nodup)
    (h2 : fs.lookupFile [n] = some c)
    (h3 : recognizedSuffixes.contains (pathSuffix n) = true)
    (h4 : ∀ a b : String, fs.lookupFile [a, b, n] = none) :
    (split_dataset fs r draw).lookupFile
      [categoryOf [n], splitChoice draw r [n], n] = some c ∧
    (split_dataset fs r draw).lookupFile [n] = none ∧
    (∀ a b : String, (a, b) ≠ (categoryOf [n], splitChoice draw r [n]) →
      (split_dataset fs r draw).lookupFile [a, b, n] = none) ∧
    splitDirPaths.Forall (fun d => d ∈ (split_dataset fs r draw).dirs) := by
  obtain ⟨es1, es2, hdecomp⟩ :=
    List.append_of_mem (splitSelection_mem_target fs h0 n c h2 h3)
  have hchar := splitSelection_mem_char fs h0
  have hnodup := splitSelection_nodup fs h0 h1
  rw [hdecomp] at hnodup
  have hdisj := List.nodup_append.mp hnodup
  have hn_not_es1 : ([n] : FPath) ∉ es1 := fun hmem => hdisj.2.2 hmem (by simp)
  have hn_not_es2 : ([n] : FPath) ∉ es2 := (List.nodup_cons.mp hdisj.2.1).1
  have hchar1 : ∀ q ∈ es1, q.length = 1 ∧
      recognizedSuffixes.contains (pathSuffix (pathName q)) = true ∧ q ≠ [n] := by
    intro q hq
    have hq' : q ∈ splitSelection (createSplitDirs fs) := by
      rw [hdecomp]
      exact List.mem_append.mpr (Or.inl hq)
    rcases hchar q hq' with ⟨ha, hb⟩
    exact ⟨ha, hb, fun hcontra => hn_not_es1 (hcontra ▸ hq)⟩
  have hchar2 : ∀ q ∈ es2, q.length = 1 ∧
      recognizedSuffixes.contains (pathSuffix (pathName q)) = true ∧ q ≠ [n] := by
    intro q hq
    have hq' : q ∈ splitSelection (createSplitDirs fs) := by
      rw [hdecomp]
      exact List.mem_append.mpr (Or.inr (List.mem_cons_of_mem _ hq))
    rcases hchar q hq' with ⟨ha, hb⟩
    exact ⟨ha, hb, fun hcontra => hn_not_es2 (hcontra ▸ hq)⟩
  have hs0dirs : (createSplitDirs fs).dirs = splitDirsAll := createSplitDirs_dirs fs h0
  have hs0lk : ∀ p, (createSplitDirs fs).lookupFile p = fs.lookupFile p :=
    fun p => lookupFile_congr_files _ _ (createSplitDirs_files fs) p
  have hph1 := foldl_assign_preserves r draw n es1 (createSplitDirs fs) hchar1 hs0dirs
  have hsAlk_n :
      (es1.foldl (fun t q => assignToSplitFolder t r draw q)
        (createSplitDirs fs)).lookupFile [n] = some c := by
    rw [hph1.2.1, hs0lk]
    exact h2
  have htgt := assign_target
    (es1.foldl (fun t q => assignToSplitFolder t r draw q) (createSplitDirs fs))
    r draw n c hph1.1 hsAlk_n
  have hsBdirs :
      ((es1.foldl (fun t q => assignToSplitFolder t r draw q)
          (createSplitDirs fs)).renameFile [n]
        [categoryOf [n], splitChoice draw r [n], n] c).dirs = splitDirsAll := by
    rw [FS.dirs_renameFile]
    exact hph1.1
  have hph2 := foldl_assign_preserves r draw n es2 _ hchar2 hsBdirs
  have hfinal : split_dataset fs r draw =
      es2.foldl (fun t q => assignToSplitFolder t r draw q)
        ((es1.foldl (fun t q => assignToSplitFolder t r draw q)
            (createSplitDirs fs)).renameFile [n]
          [categoryOf [n], splitChoice draw r [n], n] c) := by
    unfold split_dataset
    rw [hdecomp, List.foldl_append, List.foldl_cons, htgt]
  have hlen13 : ([n] : FPath) ≠ [categoryOf [n], splitChoice draw r [n], n] := by
    intro hcontra
    have := congrArg List.length hcontra
    simp at this
  refine ⟨?_, ?_, ?_, ?_⟩
  · rw [hfinal, hph2.2.2]
    exact FS.lookupFile_renameFile_dst _ _ _ _
  · rw [hfinal, hph2.2.1]
    exact FS.lookupFile_renameFile_src _ _ _ _ hlen13
  · intro a b hne
    rw [hfinal, hph2.2.2 a b]
    rw [FS.lookupFile_renameFile_other]
    · rw [hph1.2.2 a b, hs0lk]
      exact h4 a b
    · intro hcontra
      have := congrArg List.length hcontra
      simp at this
    · intro hcontra
      injection hcontra with ha rest
      injection rest with hb _
      exact hne (by rw [ha, hb])
  · have hfdirs : (split_dataset fs r draw).dirs = splitDirsAll := by
      rw [hfinal]
      exact hph2.1
    have hsub : splitDirPaths.Forall (fun d => d ∈ splitDirsAll) := by decide
    rw [List.forall_iff_forall_mem] at hsub ⊢
    intro d hd
    rw [hfdirs]
    exact hsub d hd

/-- A subdirectory-free base with one image and one label file. -/
def fsSplitW : FS :=
  ⟨[(["a.jpg"], FileContent.text "x"), (["b.txt"], FileContent.text "y")], []⟩

/-- No lookup at a path whose length differs from every stored path can
succeed. -/
theorem lookupFile_len_none (fs : FS) (p : FPath)
    (h : ∀ e ∈ fs.files, e.1.length ≠ p.length) : fs.lookupFile p = none := by
  unfold FS.lookupFile
  have hnone : fs.files.find? (fun e => e.1 == p) = none := by
    rw [List.find?_eq_none]
    intro e he
    simp only [beq_iff_eq]
    intro hcontra
    exact h e he (by rw [hcontra])
  rw [hnone]
  rfl

/-- Witness for `C5_split_assignment` on a concrete tree (ratio 1, draw 0:
the image goes to `images/train`). -/
theorem C5_split_assignment_witness :
    fsSplitW.dirs = [] ∧
    (fsSplitW.files.map (·.1)).Nodup ∧
    fsSplitW.lookupFile ["a.jpg"] = some (FileContent.text "x") ∧
    recognizedSuffixes.contains (pathSuffix "a.jpg") = true ∧
    categoryOf ["a.jpg"] = "images" ∧
    splitChoice (fun _ => 0) 1 ["a.jpg"] = "train" ∧
    (split_dataset fsSplitW 1 (fun _ => 0)).lookupFile
      [categoryOf ["a.jpg"], splitChoice (fun _ => 0) 1 ["a.jpg"], "a.jpg"] =
        some (FileContent.text "x") ∧
    (split_dataset fsSplitW 1 (fun _ => 0)).lookupFile ["a.jpg"] = none ∧
    splitDirPaths.Forall (fun d => d ∈ (split_dataset fsSplitW 1 (fun _ => 0)).dirs) := by
  have h4 : ∀ a b : String, fsSplitW.lookupFile [a, b, "a.jpg"] = none := by
    intro a b
    refine lookupFile_len_none _ _ ?_
    intro e he
    simp only [fsSplitW] at he
    rcases List.mem_cons.mp he with rfl | he
    · simp
    rcases List.mem_cons.mp he with rfl | he
    · simp
    exact absurd he (List.not_mem_nil e)
  have h := C5_split_assignment fsSplitW 1 (fun _ => 0) "a.jpg" (FileContent.text "x")
    rfl (by decide) (by decide) (by decide) h4
  exact ⟨rfl, by decide, by decide, by decide, by decide, by decide,
    h.1, h.2.1, h.2.2.2⟩

/-! ## Claim C10: the splitter selects directories too -/

theorem mkdirP_dirs_mono (fs : FS) (p d : FPath) (h : d ∈ fs.dirs) :
    d ∈ (fs.mkdirP p).dirs :=
  List.mem_append.mpr (Or.inl h)

theorem createSplitDirs_dirs_mono (fs : FS) (d : FPath) (h : d ∈ fs.dirs) :
    d ∈ (createSplitDirs fs).dirs := by
  unfold createSplitDirs splitDirPaths
  simp only [List.foldl_cons, List.foldl_nil]
  exact mkdirP_dirs_mono _ _ _ (mkdirP_dirs_mono _ _ _
    (mkdirP_dirs_mono _ _ _ (mkdirP_dirs_mono _ _ _ h)))

/-- A base holding a *directory* named `d.jpg` with a file inside it. -/
def fsDirJpg : FS :=
  ⟨[(["d.jpg", "inner.png"], FileContent.text "i")], [["d.jpg"]]⟩

/-- Claim C10: `split_dataset` selects entries purely by suffix, without an
`is_file()` check — any directory directly under the base whose name ends in
a recognized suffix is selected; concretely, the directory `d.jpg` is moved
wholesale (with its contents) into `images/train`. -/
theorem C10_dir_moved_by_splitter (fs : FS) (n : String)
    (h1 : [n] ∈ fs.dirs)
    (h2 : recognizedSuffixes.contains (pathSuffix n) = true) :
    [n] ∈ splitSelection (createSplitDirs fs) ∧
    (split_dataset fsDirJpg 1 (fun _ => 0)).lookupFile
      ["images", "train", "d.jpg", "inner.png"] = some (FileContent.text "i") ∧
    ["images", "train", "d.jpg"] ∈ (split_dataset fsDirJpg 1 (fun _ => 0)).dirs ∧
    ["d.jpg"] ∉ (split_dataset fsDirJpg 1 (fun _ => 0)).dirs := by
  refine ⟨?_, by decide, by decide, by decide⟩
  unfold splitSelection
  refine List.mem_filter.mpr ⟨?_, ?_⟩
  · unfold rootEntries
    refine List.mem_filter.mpr ⟨?_, by simp⟩
    exact List.mem_append.mpr (Or.inr (createSplitDirs_dirs_mono fs [n] h1))
  · show recognizedSuffixes.contains (pathSuffix (pathName [n])) = true
    exact h2

/-- Witness for `C10_dir_moved_by_splitter` at the concrete input. -/
theorem C10_dir_moved_by_splitter_witness :
    (["d.jpg"] : FPath) ∈ fsDirJpg.dirs ∧
    recognizedSuffixes.contains (pathSuffix "d.jpg") = true ∧
    (["d.jpg"] : FPath) ∈ splitSelection (createSplitDirs fsDirJpg) :=
  ⟨by decide, by decide,
    (C10_dir_moved_by_splitter fsDirJpg "d.jpg" (by decide) (by decide)).1⟩

/-! ## Claim C9: per-file failure isolation

Each per-file work unit in the Python code is wrapped in `try/except` (or is
a separate worker-pool task whose exception is caught and printed), so one
unit's failure cannot abort the batch.  We model a failing unit with an
oracle `fail`: a failing unit contributes nothing to the state, and the
batch is the same fold with the failing items skipped. -/

/-- `flatten_all_files` with per-file failures. -/
def flatten_all_filesF (fail : FPath → Bool) (fs : FS) : FS :=
  (fs.files.map (·.1)).foldl (fun s p => if fail p then s else moveFileSafely s p) fs

/-- `split_dataset` with per-file failures. -/
def split_datasetF (fail : FPath → Bool) (fs : FS) (r : ℚ) (draw : FPath → ℚ) : FS :=
  (splitSelection (createSplitDirs fs)).foldl
    (fun s p => if fail p then s else assignToSplitFolder s r draw p) (createSplitDirs fs)

/-- `update_all_labels` with per-file failures. -/
def update_all_labelsF (fail : FPath → Bool) (fs : FS) : FS :=
  ((fs.files.map (·.1)).filter (fun p => (pathName p).endsWith ".txt")).foldl
    (fun s p => if fail p then s else resetLabelAt s p) fs

/-- `remove_unwanted_files` with per-file failures. -/
def remove_unwanted_filesF (fail : FPath → Bool) (fs : FS) : FS :=
  (fs.files.map (·.1)).foldl
    (fun s p =>
      if fail p then s
      else if allowedSuffixes.contains (lowerStr (pathSuffix (pathName p))) then s
      else s.removeFile p)
    fs

/-- One depth pass of `remove_empty_dirs` with per-directory failures. -/
def processDepthF (fail : FPath → Bool) (fs : FS) (k : Nat) : FS :=
  (fs.dirs.filter (fun d => d.length == k)).foldl
    (fun s d => if fail d then s else pruneStep s d) fs

/-- `create_yaml` with a failing manifest write. -/
def create_yamlF (fail : Bool) (base : String) (classNames : Option (List String))
    (fs : FS) : FS :=
  if fail then fs else create_yaml base classNames fs

/-- A guarded fold is the fold over the non-failing items. -/
theorem foldl_skip_eq_filter {α β : Type} (g : β → α → β) (fail : α → Bool) :
    ∀ (L : List α) (s : β),
      L.foldl (fun t a => if fail a then t else g t a) s =
        (L.filter (fun a => !(fail a))).foldl g s := by
  intro L
  induction L with
  | nil => intro s; rfl
  | cons a L ih =>
    intro s
    rw [List.foldl_cons]
    by_cases hf : fail a = true
    · rw [if_pos hf, List.filter_cons_of_neg (by simp [hf]), ih]
    · have hf' : fail a = false := by
        cases h : fail a
        · rfl
        · exact absurd h hf
      rw [if_neg hf, List.filter_cons_of_pos (by simp [hf']), List.foldl_cons, ih]

/-- Claim C9: no per-file failure aborts a batch: each batch operation with
failing units equals the same operation run over exactly the non-failing
units (every other file is still processed, in order), and a failing
manifest write leaves the state unchanged without raising. -/
theorem C9_failure_isolation :
    (∀ (fail : FPath → Bool) (fs : FS),
      flatten_all_filesF fail fs =
        flattenOver ((fs.files.map (·.1)).filter (fun p => !(fail p))) fs) ∧
    (∀ (fail : FPath → Bool) (fs : FS) (r : ℚ) (draw : FPath → ℚ),
      split_datasetF fail fs r draw =
        ((splitSelection (createSplitDirs fs)).filter (fun p => !(fail p))).foldl
          (fun s p => assignToSplitFolder s r draw p) (createSplitDirs fs)) ∧
    (∀ (fail : FPath → Bool) (fs : FS),
      update_all_labelsF fail fs =
        (((fs.files.map (·.1)).filter (fun p => (pathName p).endsWith ".txt")).filter
            (fun p => !(fail p))).foldl (fun s p => resetLabelAt s p) fs) ∧
    (∀ (fail : FPath → Bool) (fs : FS),
      remove_unwanted_filesF fail fs =
        ((fs.files.map (·.1)).filter (fun p => !(fail p))).foldl
          (fun s p =>
            if allowedSuffixes.contains (lowerStr (pathSuffix (pathName p))) then s
            else s.removeFile p)
          fs) ∧
    (∀ (fail : FPath → Bool) (fs : FS) (k : Nat),
      processDepthF fail fs k =
        ((fs.dirs.filter (fun d => d.length == k)).filter (fun d => !(fail d))).foldl
          pruneStep fs) ∧
    (∀ (base : String) (cls : Option (List String)) (fs : FS),
      create_yamlF true base cls fs = fs) :=
  ⟨fun fail fs => foldl_skip_eq_filter _ fail _ fs,
   fun fail _ _ _ => foldl_skip_eq_filter _ fail _ _,
   fun fail fs => foldl_skip_eq_filter _ fail _ fs,
   fun fail fs => foldl_skip_eq_filter _ fail _ fs,
   fun fail fs _ => foldl_skip_eq_filter _ fail _ fs,
   fun _ _ _ => rfl⟩

end DatasetPrep
